import Mathlib

/-!
Verification development for the homelab-ci orchestrator core
(src/orchestrator/main.py, runs_db.py, github_checks.py).

Python strings are modelled as lists of characters (`PyStr`), so Python
slicing `s[:n]` is `List.take n`, `s[-n:]` is `List.drop (length - n)`,
and `len` is `List.length`.  The SQLite table `runs` is modelled as a
list of rows in insertion order together with the next AUTOINCREMENT id.
External collaborators (GitHub commit listing, job execution, check-run
creation) are oracles packaged in an `Env` record, following section 6 of
the specification which treats them as consumed capabilities.
-/

/-- Python `str` as a sequence of code points. -/
abbrev PyStr := List Char

/-- Python `s or default` for strings: the default replaces the empty (falsy) string. -/
def orDefault (s dflt : PyStr) : PyStr := if s = [] then dflt else s

/-- Lexicographic string comparison, as SQLite TEXT `<` and Python `<` compare. -/
def pyLt : PyStr → PyStr → Bool
  | [], [] => false
  | [], _ :: _ => true
  | _ :: _, [] => false
  | a :: as, b :: bs => if a < b then true else if b < a then false else pyLt as bs

/-- A commit as the poll loop sees it: sha plus (first line of the) message. -/
structure Commit where
  sha : PyStr
  message : PyStr
deriving DecidableEq

/-- One row of the SQLite `runs` table (runs_db.py, init_db schema). -/
structure Row where
  id : Nat
  owner : PyStr
  repo : PyStr
  sha : PyStr
  success : Int
  html_url : PyStr
  at_ : PyStr
  output : PyStr
  branch : PyStr
  commit_message : PyStr
  started_at : PyStr
deriving DecidableEq

/-- The `runs` table: rows in insertion order, next AUTOINCREMENT id. -/
structure Db where
  rows : List Row
  nextId : Nat
deriving DecidableEq

def emptyDb : Db := { rows := [], nextId := 0 }

/-- runs_db.py: success sentinel for a pending run. -/
def PENDING : Int := -1

/-- runs_db.py: success sentinel for a cancelled run. -/
def CANCELLED : Int := -2

/-- runs_db.py: `MAX_OUTPUT_LEN = 1_000_000`, cap on stored log size. -/
def MAX_OUTPUT_LEN : Nat := 1000000

def mainBranch : PyStr := "main".data

/-- Row predicate for the WHERE clause `owner=? AND repo=? AND sha=? AND success=-1`,
where the sha argument is already in short (7 character) form. -/
def isPendingFor (o r s7 : PyStr) (row : Row) : Bool :=
  row.owner = o ∧ row.repo = r ∧ row.sha = s7 ∧ row.success = PENDING

/-- All rows currently in Pending state. -/
def pendings (db : Db) : List Row := db.rows.filter (fun row => row.success = PENDING)

/-- The row INSERTed by runs_db.record_pending_run: pending state, `sha[:7]`,
`commit_message[:2048]`, `branch or "main"`, `started_at = at`, empty output. -/
def freshPendingRow (db : Db) (owner repo sha html_url at_ branch commit_message : PyStr) : Row :=
  { id := db.nextId, owner := owner, repo := repo, sha := sha.take 7,
    success := PENDING, html_url := html_url, at_ := at_, output := [],
    branch := orDefault branch mainBranch,
    commit_message := commit_message.take 2048, started_at := at_ }

/-- runs_db.record_pending_run: INSERT a row in pending state. -/
def recordPendingRun (db : Db) (owner repo sha html_url at_ branch commit_message : PyStr) : Db :=
  { rows := db.rows ++ [freshPendingRow db owner repo sha html_url at_ branch commit_message],
    nextId := db.nextId + 1 }

/-- The id selected by `SELECT id FROM runs WHERE owner=? AND repo=? AND sha=? AND
success=-1 ORDER BY id DESC LIMIT 1`: the maximal id among matching pending rows. -/
def maxPendingId (rows : List Row) (o r s7 : PyStr) : Option Nat :=
  let ids := (rows.filter (isPendingFor o r s7)).map Row.id
  match ids with
  | [] => none
  | _ :: _ => some (ids.foldl max 0)

/-- The UPDATE of runs_db.record_run applied to the selected pending row:
sets success to 1 or 0 and overwrites html_url, at, output, branch, commit_message
(id, owner, repo, sha, started_at are untouched). -/
def resolveRow (success : Bool) (html_url at_ out branch msg : PyStr) (row : Row) : Row :=
  { row with
    success := (if success then 1 else 0 : Int), html_url := html_url, at_ := at_,
    output := out, branch := orDefault branch mainBranch, commit_message := msg }

/-- runs_db.record_run: update the most recent pending run for owner/repo/sha[:7],
or insert a terminal row when no pending row exists. -/
def recordRun (db : Db) (owner repo sha : PyStr) (success : Bool)
    (html_url at_ output branch commit_message : PyStr) : Db :=
  let out := output.take MAX_OUTPUT_LEN
  let msg := commit_message.take 2048
  match maxPendingId db.rows owner repo (sha.take 7) with
  | some i =>
      { db with rows := db.rows.map (fun row =>
          if row.id = i then resolveRow success html_url at_ out branch msg row else row) }
  | none =>
      { rows := db.rows ++
          [{ id := db.nextId, owner := owner, repo := repo, sha := sha.take 7,
             success := (if success then 1 else 0 : Int), html_url := html_url, at_ := at_,
             output := out, branch := orDefault branch mainBranch,
             commit_message := msg, started_at := at_ }],
        nextId := db.nextId + 1 }

/-- runs_db.mark_pending_run_cancelled: UPDATE runs SET success=-2
WHERE owner=? AND repo=? AND sha=? AND success=-1 (all matching pending rows). -/
def markPendingRunCancelled (db : Db) (owner repo sha : PyStr) : Db :=
  { db with rows := db.rows.map (fun row =>
      if isPendingFor owner repo (sha.take 7) row then { row with success := CANCELLED }
      else row) }

/-- Fields returned per row by runs_db.get_pending_runs. -/
structure PendingInfo where
  owner : PyStr
  repo : PyStr
  sha : PyStr
  branch : PyStr
deriving DecidableEq

/-- runs_db.get_pending_runs: SELECT owner, repo, sha, branch FROM runs
WHERE success=-1 ORDER BY id DESC. -/
def getPendingRuns (db : Db) : List PendingInfo :=
  (pendings db).reverse.map (fun row =>
    { owner := row.owner, repo := row.repo, sha := row.sha, branch := row.branch })

/-- runs_db.archive_runs_older_than: DELETE FROM runs WHERE at < cutoff. -/
def archiveOlder (db : Db) (cutoff : PyStr) : Db :=
  { db with rows := db.rows.filter (fun row => ¬ pyLt row.at_ cutoff) }

/-- main.py startup recovery (lines 201 to 207): cancel every pending run and
collect the (owner, repo, branch, sha) retry keys, in get_pending_runs order. -/
def startupRecovery (db : Db) : Db × List (PyStr × PyStr × PyStr × PyStr) :=
  let pend := getPendingRuns db
  (pend.foldl (fun d p => markPendingRunCancelled d p.owner p.repo p.sha) db,
   pend.map (fun p => (p.owner, p.repo, p.branch, p.sha)))

/-- Well-formed table: every stored id is below the AUTOINCREMENT counter. -/
def WFdb (db : Db) : Prop := ∀ row ∈ db.rows, row.id < db.nextId

example : recordPendingRun emptyDb "o".data "r".data "abc1234def".data [] "t0".data "main".data [] =
    { rows := [{ id := 0, owner := "o".data, repo := "r".data, sha := "abc1234".data,
                 success := -1, html_url := [], at_ := "t0".data, output := [],
                 branch := "main".data, commit_message := [], started_at := "t0".data }],
      nextId := 1 } := by decide

/-- github_checks.update_check_run (line 86): GitHub caps output.text at 65535
characters, so text longer than that is cut to its final 65535 characters
(`output_text[-65535:]`). -/
def truncateReportText (t : PyStr) : PyStr :=
  if t.length > 65535 then t.drop (t.length - 65535) else t

/-- runs_db.record_run (line 85): the locally stored output is
`(output or "")[:MAX_OUTPUT_LEN]`. -/
def capStoredOutput (output : PyStr) : PyStr := output.take MAX_OUTPUT_LEN

/-- Observable actions of the poll loop, in program order. -/
inductive Event where
  | recordPending (sha : PyStr)
  | jobRun (sha : PyStr)
  | completeCheck (sha : PyStr) (conclusion : PyStr)
  | recordRunEv (sha : PyStr) (success : Bool)
  | saveWatermark (sha : PyStr)
  | saveState
  | archive
  | wouldRun (sha : PyStr)
deriving DecidableEq

/-- External collaborators of one poll cycle, as read-only oracles
(specification section 6): commit listing, job execution, check-run creation,
clock values. -/
structure Env where
  between : PyStr → PyStr → PyStr → PyStr → List Commit
  jobFor : PyStr → Except PyStr (Int × PyStr)
  htmlFor : PyStr → PyStr
  now : PyStr
  today : PyStr
  archiveCutoff : PyStr

/-- main.run_one lines 124 to 135: run_job inside try/except; an exception e
becomes exit code 1 with output str(e). -/
def jobOutcome (env : Env) (c : Commit) : Int × PyStr :=
  match env.jobFor c.sha with
  | .ok res => res
  | .error e => (1, e)

def noOutputStr : PyStr := "(no output)".data

def strSuccess : PyStr := "success".data

def strFailure : PyStr := "failure".data

/-- The observable actions of one main.run_one call (non dry): open a pending
run, execute the job, complete the check run with success or failure, record
the terminal run. -/
def runOneEvents (env : Env) (c : Commit) : List Event :=
  let eo := jobOutcome env c
  let ok := decide (eo.1 = 0)
  [Event.recordPending c.sha, Event.jobRun c.sha,
   Event.completeCheck c.sha (if ok then strSuccess else strFailure),
   Event.recordRunEv c.sha ok]

/-- The run-store effect of one main.run_one call: record_pending_run before the
job, record_run after it, with run_output = output or "(no output)". -/
def runOneDb (env : Env) (db : Db) (owner repo branch : PyStr) (c : Commit) : Db :=
  let htmlUrl := env.htmlFor c.sha
  let db1 := recordPendingRun db owner repo c.sha htmlUrl env.now branch c.message
  let eo := jobOutcome env c
  let runOutput := orDefault eo.2 noOutputStr
  recordRun db1 owner repo c.sha (decide (eo.1 = 0)) htmlUrl env.now runOutput branch c.message

/-- main.py lines 269 to 274: for each discovered commit run run_one, then set
the watermark to that commit and save the state file, before the next commit. -/
def processCommits (env : Env) (db : Db) (owner repo branch : PyStr)
    (toRun : List Commit) (wm : Option PyStr) : Db × Option PyStr × List Event :=
  toRun.foldl
    (fun acc c =>
      (runOneDb env acc.1 owner repo branch c, some c.sha,
       acc.2.2 ++ runOneEvents env c ++ [Event.saveWatermark c.sha]))
    (db, wm, [])

/-- main.py lines 253 to 258 (CommitDiscovery): with no watermark the list is
just the head; otherwise get_commits_between, falling back to the head when
that list is empty although last differs from head. -/
def discoverToRun (env : Env) (owner repo : PyStr) (last : Option PyStr) (head : Commit) :
    List Commit :=
  match last with
  | none => [head]
  | some l =>
      let toRun := env.between owner repo l head.sha
      if toRun = [] ∧ l ≠ head.sha then [head] else toRun

/-- Result of handling one (branch, head) pair in the poll loop: updated run
store, watermark write if any, updated retry set, emitted events. -/
structure BranchOut where
  db : Db
  wmWrite : Option PyStr
  retry : List (PyStr × PyStr × PyStr × PyStr)
  events : List Event
deriving DecidableEq

/-- main.py lines 245 to 278, the body of the per-branch loop: the
last == head short circuit (overridden for a pending retry), commit discovery,
the empty-to_run watermark save, the retry-set discard, and the per-commit run
loop (or would-run logging in dry-run mode). -/
def branchStep (env : Env) (dryRun : Bool) (owner repo branch : PyStr)
    (last : Option PyStr) (retry : List (PyStr × PyStr × PyStr × PyStr))
    (head : Commit) (db : Db) : BranchOut :=
  let sha := head.sha
  let isRetry := (owner, repo, branch, sha.take 7) ∈ retry
  if last = some sha ∧ ¬ isRetry then
    { db := db, wmWrite := none, retry := retry, events := [] }
  else
    let toRun := discoverToRun env owner repo last head
    if toRun = [] then
      if dryRun then { db := db, wmWrite := none, retry := retry, events := [] }
      else { db := db, wmWrite := some sha, retry := retry, events := [Event.saveState] }
    else
      let retry2 := if isRetry then retry.filter (fun k => k ≠ (owner, repo, branch, sha.take 7))
                    else retry
      if dryRun then
        { db := db, wmWrite := none, retry := retry2,
          events := toRun.map (fun c => Event.wouldRun c.sha) }
      else
        let res := processCommits env db owner repo branch toRun last
        { db := res.1, wmWrite := res.2.1, retry := retry2, events := res.2.2 }

/-- main.save_state (lines 57 to 61) writes the state file in place:
`open(path, "w")` first truncates the file, then json.dump streams the new
document as a sequence of chunk writes whose concatenation is the document.
`saveStateCrash prior chunks k` is the file content if the process dies after
k primitive steps: k = 0 is before the truncating open, k = 1 is just after
it, and step 1 + i is after i chunk writes; k = chunks.length + 1 is a
completed save. -/
def saveStateCrash (prior : Option PyStr) (chunks : List PyStr) (k : Nat) : Option PyStr :=
  if k = 0 then prior else some (chunks.take (k - 1)).flatten

/-- Watermark keys: (owner, repo, branch), the flattening of the nested
state dict state["owner/repo"][branch]. -/
abbrev WKey := PyStr × PyStr × PyStr

/-- Lookup in the watermark association list. -/
def wmGet : List (WKey × PyStr) → WKey → Option PyStr
  | [], _ => none
  | (k, v) :: rest, key => if k = key then some v else wmGet rest key

/-- In-place update (or append) in the watermark association list. -/
def wmSet : List (WKey × PyStr) → WKey → PyStr → List (WKey × PyStr)
  | [], key, v => [(key, v)]
  | (k, v0) :: rest, key, v =>
      if k = key then (key, v) :: rest else (k, v0) :: wmSet rest key v

/-- The mutable state threaded through main: the watermark map and archive
cursor of the state file, the run store, and the in-memory retry set. -/
structure PState where
  watermarks : List (WKey × PyStr)
  lastArchiveDate : Option PyStr
  db : Db
  retry : List (PyStr × PyStr × PyStr × PyStr)
deriving DecidableEq

/-- One watched target as the cycle observes it: owner, repo, and the resolved
(branch, head commit) pairs for this cycle. -/
structure TargetObs where
  owner : PyStr
  repo : PyStr
  branches : List (PyStr × Commit)
deriving DecidableEq

/-- Apply one branchStep result to the threaded state. -/
def applyBranch (env : Env) (dryRun : Bool) (ps : PState) (owner repo branch : PyStr)
    (head : Commit) : PState × List Event :=
  let out := branchStep env dryRun owner repo branch
    (wmGet ps.watermarks (owner, repo, branch)) ps.retry head ps.db
  ({ ps with
     db := out.db, retry := out.retry,
     watermarks := match out.wmWrite with
       | none => ps.watermarks
       | some v => wmSet ps.watermarks (owner, repo, branch) v },
   out.events)

/-- main.py poll cycle (lines 211 to 278): the daily archive step, then every
target and every resolved branch in order. -/
def pollCycle (env : Env) (dryRun : Bool) (targets : List TargetObs) (ps : PState) :
    PState × List Event :=
  let start :=
    if ps.lastArchiveDate ≠ some env.today ∧ ¬ dryRun then
      ({ ps with
         db := archiveOlder ps.db env.archiveCutoff,
         lastArchiveDate := some env.today },
       [Event.archive, Event.saveState])
    else (ps, ([] : List Event))
  targets.foldl
    (fun acc t =>
      t.branches.foldl
        (fun acc2 bh =>
          let r := applyBranch env dryRun acc2.1 t.owner t.repo bh.1 bh.2
          (r.1, acc2.2 ++ r.2))
        acc)
    start

/-- main.py while-True loop with the dry-run break (lines 280 to 282), fuelled:
returns the final state, all events, the number of completed cycles, and the
process exit status (some 0 when the dry-run break fired, none while looping). -/
def mainLoop (env : Env) (dryRun : Bool) (targets : List TargetObs) :
    Nat → PState → PState × List Event × Nat × Option Nat
  | 0, ps => (ps, [], 0, none)
  | fuel + 1, ps =>
      let c := pollCycle env dryRun targets ps
      if dryRun then (c.1, c.2, 1, some 0)
      else
        let rest := mainLoop env dryRun targets fuel c.1
        (rest.1, c.2 ++ rest.2.1, rest.2.2.1 + 1, rest.2.2.2)

/-- The whole process after startup (main lines 191 to 282): crash recovery
over the run store, then the poll loop. -/
def runMainModel (env : Env) (dryRun : Bool) (targets : List TargetObs) (db0 : Db)
    (wm0 : List (WKey × PyStr)) (lad0 : Option PyStr) (fuel : Nat) :
    PState × List Event × Nat × Option Nat :=
  let rec0 := startupRecovery db0
  mainLoop env dryRun targets fuel
    { watermarks := wm0, lastArchiveDate := lad0, db := rec0.1, retry := rec0.2 }

/-- Control position of the serialized begin/complete discipline
(specification sections 4.3 and 5): between runs, inside one run (holding the
owner, repo and sha passed to begin), or dead after a crash. -/
inductive Mode where
  | idle
  | inflight (owner repo sha : PyStr)
  | crashed
deriving DecidableEq

/-- A run-store state together with the control position. -/
structure LState where
  db : Db
  mode : Mode
deriving DecidableEq

/-- The operations that touch Run lifecycle states, as used by main.py:
record_pending_run at begin, record_run at complete (same owner/repo/sha as
the begin, run_one lines 105 to 161), arbitrary process death, and the
startup recovery pass. -/
inductive LStep : LState → LState → Prop where
  | beginRun (db : Db) (o r sha url at_ br msg : PyStr) :
      LStep ⟨db, Mode.idle⟩
        ⟨recordPendingRun db o r sha url at_ br msg, Mode.inflight o r sha⟩
  | completeRun (db : Db) (o r sha : PyStr) (success : Bool) (url at_ out br msg : PyStr) :
      LStep ⟨db, Mode.inflight o r sha⟩
        ⟨recordRun db o r sha success url at_ out br msg, Mode.idle⟩
  | crash (db : Db) (m : Mode) : LStep ⟨db, m⟩ ⟨db, Mode.crashed⟩
  | recover (db : Db) : LStep ⟨db, Mode.crashed⟩ ⟨(startupRecovery db).1, Mode.idle⟩

/-- States reachable from an empty run store under the serialized discipline. -/
inductive LReach : LState → Prop where
  | init : LReach ⟨emptyDb, Mode.idle⟩
  | step {s t : LState} : LReach s → LStep s t → LReach t

/-- The number of Pending rows for one (owner, repo, short sha) key. -/
def pendingCountForKey (db : Db) (o r s7 : PyStr) : Nat :=
  ((pendings db).filter (fun row => row.owner = o ∧ row.repo = r ∧ row.sha = s7)).length

/-- Inductive invariant of the lifecycle machine: stored shas are 7-truncated;
idle states hold no pending row, in-flight states exactly the one opened by
begin, crashed states at most one. -/
def LInv (s : LState) : Prop :=
  (∀ row ∈ s.db.rows, row.sha.take 7 = row.sha) ∧
  match s.mode with
  | Mode.idle => pendings s.db = []
  | Mode.inflight o r sha =>
      ∃ p, pendings s.db = [p] ∧ p.owner = o ∧ p.repo = r ∧ p.sha = sha.take 7
  | Mode.crashed => (pendings s.db).length ≤ 1

lemma foldlMax_mem (xs : List Nat) : ∀ a : Nat, xs.foldl max a ∈ a :: xs := by
  induction xs with
  | nil => intro a; simp
  | cons x xs ih =>
      intro a
      rw [List.foldl_cons]
      rcases List.mem_cons.mp (ih (max a x)) with h1 | h2
      · rcases max_choice a x with hc | hc
        · exact List.mem_cons.mpr (Or.inl (h1.trans hc))
        · exact List.mem_cons.mpr (Or.inr (List.mem_cons.mpr (Or.inl (h1.trans hc))))
      · exact List.mem_cons.mpr (Or.inr (List.mem_cons.mpr (Or.inr h2)))

lemma le_foldlMax_init (xs : List Nat) : ∀ a : Nat, a ≤ xs.foldl max a := by
  induction xs with
  | nil => intro a; simp
  | cons y ys ih =>
      intro a
      rw [List.foldl_cons]
      exact (le_max_left a y).trans (ih (max a y))

lemma le_foldlMax_of_mem (xs : List Nat) : ∀ a x : Nat, x ∈ xs → x ≤ xs.foldl max a := by
  induction xs with
  | nil => intro a x hx; cases hx
  | cons y ys ih =>
      intro a x hx
      rw [List.foldl_cons]
      rcases List.mem_cons.mp hx with h1 | h2
      · rw [h1]
        exact (le_max_right a y).trans (le_foldlMax_init ys (max a y))
      · exact ih (max a y) x h2

/-- The id picked by record\_run is the id of a matching pending row and is
maximal among them. -/
lemma maxPendingId_spec (rows : List Row) (o r s7 : PyStr) (p0 : Row)
    (hp0 : p0 ∈ rows) (hpend : isPendingFor o r s7 p0 = true) :
    ∃ i, maxPendingId rows o r s7 = some i ∧
      (∃ p ∈ rows, isPendingFor o r s7 p = true ∧ p.id = i) ∧
      (∀ q ∈ rows, isPendingFor o r s7 q = true → q.id ≤ i) := by
  have hmem : p0.id ∈ (rows.filter (isPendingFor o r s7)).map Row.id :=
    List.mem_map_of_mem Row.id (List.mem_filter.mpr ⟨hp0, hpend⟩)
  set ids := (rows.filter (isPendingFor o r s7)).map Row.id with hids
  cases hc : ids with
  | nil => rw [hc] at hmem; cases hmem
  | cons j js =>
      refine ⟨ids.foldl max 0, ?_, ?_, ?_⟩
      · rw [maxPendingId, ← hids, hc]
      · have hin : ids.foldl max 0 ∈ ids := by
          rw [hc, List.foldl_cons, Nat.zero_max]
          exact foldlMax_mem js j
        rw [hids] at hin
        rcases List.mem_map.mp hin with ⟨p, hpf, hpid⟩
        rcases List.mem_filter.mp hpf with ⟨hpr, hpp⟩
        exact ⟨p, hpr, hpp, hpid⟩
      · intro q hq hqp
        exact le_foldlMax_of_mem ids 0 q.id
          (hids ▸ List.mem_map_of_mem Row.id (List.mem_filter.mpr ⟨hq, hqp⟩))

/-- The id picked by record\_run always belongs to a matching pending row. -/
lemma maxPendingId_mem (rows : List Row) (o r s7 : PyStr) (i : Nat)
    (hmax : maxPendingId rows o r s7 = some i) :
    ∃ p ∈ rows, isPendingFor o r s7 p = true ∧ p.id = i := by
  cases hc : (rows.filter (isPendingFor o r s7)).map Row.id with
  | nil =>
      rw [maxPendingId, hc] at hmax
      exact Option.noConfusion hmax
  | cons j js =>
      have hval : maxPendingId rows o r s7 = some ((j :: js).foldl max 0) := by
        rw [maxPendingId, hc]
      rw [hval] at hmax
      have hieq : (j :: js).foldl max 0 = i := Option.some_inj.mp hmax
      have hin : (j :: js).foldl max 0 ∈ j :: js := by
        rw [List.foldl_cons, Nat.zero_max]
        exact foldlMax_mem js j
      rw [hieq] at hin
      rw [← hc] at hin
      rcases List.mem_map.mp hin with ⟨p, hpf, hpid⟩
      rcases List.mem_filter.mp hpf with ⟨hpr, hpp⟩
      exact ⟨p, hpr, hpp, hpid⟩

/-- C6: Completing a job resolves the run to Success or Failure by updating the
most recent Pending row for that (owner, repo, commit): if a matching Pending
row exists, record\_run keeps the row count and the AUTOINCREMENT counter
unchanged (no insert) and rewrites exactly the matching Pending row of maximal
id, via the in-place UPDATE, leaving every other row untouched. -/
theorem recordRun_updates_most_recent_pending
    (db : Db) (owner repo sha : PyStr) (success : Bool) (url at_ output branch msg : PyStr)
    (p0 : Row) (hp0 : p0 ∈ db.rows) (hpend : isPendingFor owner repo (sha.take 7) p0 = true) :
    (recordRun db owner repo sha success url at_ output branch msg).nextId = db.nextId ∧
    (recordRun db owner repo sha success url at_ output branch msg).rows.length
      = db.rows.length ∧
    ∃ p ∈ db.rows, isPendingFor owner repo (sha.take 7) p = true ∧
      (∀ q ∈ db.rows, isPendingFor owner repo (sha.take 7) q = true → q.id ≤ p.id) ∧
      (recordRun db owner repo sha success url at_ output branch msg).rows
        = db.rows.map (fun row =>
            if row.id = p.id then
              resolveRow success url at_ (output.take MAX_OUTPUT_LEN) branch (msg.take 2048) row
            else row) := by
  rcases maxPendingId_spec db.rows owner repo (sha.take 7) p0 hp0 hpend with
    ⟨i, hmax, ⟨p, hpr, hpp, hpid⟩, hle⟩
  constructor
  · rw [recordRun, hmax]
  constructor
  · rw [recordRun, hmax]
    exact List.length_map db.rows _
  · exact ⟨p, hpr, hpp, fun q hq hqp => hpid ▸ hle q hq hqp, by rw [recordRun, hmax, hpid]⟩

def db6 : Db := recordPendingRun emptyDb "o".data "r".data "abc1234def".data
  "u".data "t0".data "main".data "m".data

def wRow6 : Row :=
  { id := 0, owner := "o".data, repo := "r".data, sha := "abc1234".data, success := -1,
    html_url := "u".data, at_ := "t0".data, output := [], branch := "main".data,
    commit_message := "m".data, started_at := "t0".data }

theorem recordRun_updates_most_recent_pending_witness :
    wRow6 ∈ db6.rows ∧
    isPendingFor "o".data "r".data ("abc1234def".data.take 7) wRow6 = true ∧
    ((recordRun db6 "o".data "r".data "abc1234def".data true "u".data "t1".data
        "ok".data "main".data "m".data).nextId = db6.nextId ∧
      (recordRun db6 "o".data "r".data "abc1234def".data true "u".data "t1".data
        "ok".data "main".data "m".data).rows.length = db6.rows.length ∧
      ∃ p ∈ db6.rows, isPendingFor "o".data "r".data ("abc1234def".data.take 7) p = true ∧
        (∀ q ∈ db6.rows,
          isPendingFor "o".data "r".data ("abc1234def".data.take 7) q = true → q.id ≤ p.id) ∧
        (recordRun db6 "o".data "r".data "abc1234def".data true "u".data "t1".data
          "ok".data "main".data "m".data).rows
          = db6.rows.map (fun row =>
              if row.id = p.id then
                resolveRow true "u".data "t1".data ("ok".data.take MAX_OUTPUT_LEN)
                  "main".data ("m".data.take 2048) row
              else row)) :=
  ⟨by decide, by decide,
    recordRun_updates_most_recent_pending db6 "o".data "r".data "abc1234def".data true
      "u".data "t1".data "ok".data "main".data "m".data wRow6 (by decide) (by decide)⟩

/-- C8: When the report output text exceeds the 65535 character limit of the
Checks API, the externally reported text is exactly the last 65535 characters
(the head is dropped, the tail kept), while the run store keeps the output
under the far larger 1,000,000 character local cap, so outputs up to that cap
(such as a 200,000 character output) are stored in full locally. -/
theorem report_truncation_keeps_tail (t : PyStr) (hlong : 65535 < t.length) :
    truncateReportText t = t.drop (t.length - 65535) ∧
    (truncateReportText t).length = 65535 ∧
    t.take (t.length - 65535) ++ truncateReportText t = t ∧
    (t.length ≤ MAX_OUTPUT_LEN → capStoredOutput t = t) := by
  have hcond : t.length > 65535 := hlong
  have htr : truncateReportText t = t.drop (t.length - 65535) := by
    rw [truncateReportText, if_pos hcond]
  refine ⟨htr, ?_, ?_, ?_⟩
  · rw [htr, List.length_drop]
    omega
  · rw [htr, List.take_append_drop]
  · intro hcap
    exact List.take_of_length_le hcap

theorem report_truncation_keeps_tail_witness :
    65535 < (List.replicate 200000 'a' : PyStr).length ∧
    (List.replicate 200000 'a' : PyStr).length ≤ MAX_OUTPUT_LEN ∧
    (truncateReportText (List.replicate 200000 'a')
        = (List.replicate 200000 'a' : PyStr).drop ((List.replicate 200000 'a' : PyStr).length - 65535) ∧
      (truncateReportText (List.replicate 200000 'a')).length = 65535 ∧
      (List.replicate 200000 'a' : PyStr).take ((List.replicate 200000 'a' : PyStr).length - 65535)
          ++ truncateReportText (List.replicate 200000 'a') = List.replicate 200000 'a' ∧
      ((List.replicate 200000 'a' : PyStr).length ≤ MAX_OUTPUT_LEN →
        capStoredOutput (List.replicate 200000 'a') = List.replicate 200000 'a')) :=
  ⟨by rw [List.length_replicate]; norm_num,
    by rw [List.length_replicate]; norm_num [MAX_OUTPUT_LEN],
    report_truncation_keeps_tail (List.replicate 200000 'a')
      (by rw [List.length_replicate]; norm_num)⟩

/-- C10: Terminal lifecycle states are absorbing in the run store: a row whose
success field is Success (1), Failure (0) or Cancelled (-2) survives
record\_pending\_run, mark\_pending\_run\_cancelled and (for a table with
distinct primary keys) record\_run completely unchanged, because both UPDATE
paths touch only rows whose success field is Pending (-1). -/
theorem terminal_states_absorbing (db : Db) (row : Row) (hrow : row ∈ db.rows)
    (hterm : row.success = 1 ∨ row.success = 0 ∨ row.success = CANCELLED) :
    (∀ o r sha url at_ br msg, row ∈ (recordPendingRun db o r sha url at_ br msg).rows) ∧
    (∀ o r sha, row ∈ (markPendingRunCancelled db o r sha).rows) ∧
    (∀ o r sha success url at_ out br msg, (db.rows.map Row.id).Nodup →
      row ∈ (recordRun db o r sha success url at_ out br msg).rows) := by
  have hnp : row.success ≠ PENDING := by
    rcases hterm with h | h | h <;> rw [h] <;> decide
  refine ⟨?_, ?_, ?_⟩
  · intro o r sha url at_ br msg
    rw [recordPendingRun]
    exact List.mem_append_left _ hrow
  · intro o r sha
    rw [markPendingRunCancelled]
    have hne : isPendingFor o r (sha.take 7) row = false := by
      rw [isPendingFor]
      simp only [decide_eq_false_iff_not]
      rintro ⟨-, -, -, hp⟩
      exact hnp hp
    have : row = (fun row0 => if isPendingFor o r (sha.take 7) row0 then
        { row0 with success := CANCELLED } else row0) row := by
      simp [hne]
    rw [this]
    exact List.mem_map_of_mem _ hrow
  · intro o r sha success url at_ out br msg hnodup
    rw [recordRun]
    cases hmax : maxPendingId db.rows o r (sha.take 7) with
    | none => exact List.mem_append_left _ hrow
    | some i =>
        rcases maxPendingId_mem db.rows o r (sha.take 7) i hmax with ⟨p, hpr, hpp, hpid⟩
        have hrne : row.id ≠ i := by
          intro hri
          have hrp : row = p := List.inj_on_of_nodup_map hnodup hrow hpr (by rw [hri, hpid])
          have : p.success = PENDING := by
            have := List.mem_filter.mp (List.mem_filter.mpr ⟨hpr, hpp⟩)
            rw [isPendingFor] at hpp
            simp only [decide_eq_true_eq] at hpp
            exact hpp.2.2.2
          rw [hrp] at hnp
          exact hnp this
        have : row = (fun row0 =>
            if row0.id = i then
              resolveRow success url at_ (out.take MAX_OUTPUT_LEN) br (msg.take 2048) row0
            else row0) row := by
          simp [hrne]
        rw [this]
        exact List.mem_map_of_mem _ hrow

def dbT : Db :=
  { rows := [{ id := 0, owner := "o".data, repo := "r".data, sha := "abc1234".data,
               success := 1, html_url := [], at_ := "t0".data, output := [],
               branch := "main".data, commit_message := [], started_at := "t0".data }],
    nextId := 1 }

theorem terminal_states_absorbing_witness :
    (dbT.rows.get ⟨0, by decide⟩) ∈ dbT.rows ∧
    ((dbT.rows.get ⟨0, by decide⟩).success = 1 ∨ (dbT.rows.get ⟨0, by decide⟩).success = 0 ∨
      (dbT.rows.get ⟨0, by decide⟩).success = CANCELLED) ∧
    ((∀ o r sha url at_ br msg,
        (dbT.rows.get ⟨0, by decide⟩) ∈ (recordPendingRun dbT o r sha url at_ br msg).rows) ∧
      (∀ o r sha, (dbT.rows.get ⟨0, by decide⟩) ∈ (markPendingRunCancelled dbT o r sha).rows) ∧
      (∀ o r sha success url at_ out br msg, (dbT.rows.map Row.id).Nodup →
        (dbT.rows.get ⟨0, by decide⟩) ∈ (recordRun dbT o r sha success url at_ out br msg).rows)) :=
  ⟨by decide, by decide,
    terminal_states_absorbing dbT (dbT.rows.get ⟨0, by decide⟩) (by decide) (by decide)⟩

/-- C2 counterexample: save_state is not an atomic rewrite.  Crashing right
after the truncating `open(path, "w")` (step 1), with prior content "old" and
new document "ne" ++ "w!", leaves an empty file that is neither the complete
prior document nor the complete new one. -/
theorem saveState_atomicity_counterexample :
    1 ≤ (["ne".data, "w!".data] : List PyStr).length + 1 ∧
    ¬ (saveStateCrash (some "old".data) ["ne".data, "w!".data] 1 = some "old".data ∨
       saveStateCrash (some "old".data) ["ne".data, "w!".data] 1
         = some (["ne".data, "w!".data] : List PyStr).flatten) := by decide

/-- C2 amended: save_state is a full-document in-place rewrite: a completed
save leaves exactly the new document and before the save starts the file holds
the prior document, but the rewrite is not atomic: a crash after k steps of
the save leaves some prefix of the new document (possibly empty, the
truncation of the prior file being the first step). -/
theorem saveState_full_rewrite (prior : Option PyStr) (chunks : List PyStr) (k : Nat)
    (hk1 : 1 ≤ k) (hk2 : k ≤ chunks.length + 1) :
    -- hk2 keeps k within the steps of one save; the conjuncts below do not
    -- depend on it, the torn prefix being well defined for any k ≥ 1
    saveStateCrash prior chunks 0 = prior ∧
    saveStateCrash prior chunks (chunks.length + 1) = some chunks.flatten ∧
    saveStateCrash prior chunks k = some (chunks.take (k - 1)).flatten ∧
    ∃ rest, (chunks.take (k - 1)).flatten ++ rest = chunks.flatten := by
  refine ⟨by rw [saveStateCrash, if_pos rfl], ?_, ?_, ?_⟩
  · rw [saveStateCrash, if_neg (Nat.succ_ne_zero _)]
    rw [Nat.add_sub_cancel, List.take_length]
  · rw [saveStateCrash, if_neg (by omega)]
  · refine ⟨(chunks.drop (k - 1)).flatten, ?_⟩
    rw [← List.flatten_append, List.take_append_drop]

theorem saveState_full_rewrite_witness :
    1 ≤ 1 ∧ 1 ≤ (["ab".data] : List PyStr).length + 1 ∧
    (saveStateCrash (some "x".data) ["ab".data] 0 = some "x".data ∧
      saveStateCrash (some "x".data) ["ab".data] ((["ab".data] : List PyStr).length + 1)
        = some (["ab".data] : List PyStr).flatten ∧
      saveStateCrash (some "x".data) ["ab".data] 1
        = some ((["ab".data] : List PyStr).take (1 - 1)).flatten ∧
      ∃ rest, ((["ab".data] : List PyStr).take (1 - 1)).flatten ++ rest
        = (["ab".data] : List PyStr).flatten) :=
  ⟨by decide, by decide,
    saveState_full_rewrite (some "x".data) ["ab".data] 1 (by decide) (by decide)⟩

/-- C4: the CommitDiscovery watermark policy of the poll loop: with no
watermark the commits to evaluate are exactly the head; when the watermark
equals the head and no retry is pending the branch is skipped entirely (no
events, no watermark write, run store untouched); otherwise a non-empty
get_commits_between result is used verbatim, and an empty result with
last different from head falls back to exactly the head. -/
theorem commitDiscovery_watermark_policy (env : Env) (owner repo branch : PyStr)
    (retry : List (PyStr × PyStr × PyStr × PyStr)) (head : Commit) (db : Db) :
    discoverToRun env owner repo none head = [head] ∧
    ((owner, repo, branch, head.sha.take 7) ∉ retry →
      branchStep env false owner repo branch (some head.sha) retry head db
        = { db := db, wmWrite := none, retry := retry, events := [] }) ∧
    (∀ l : PyStr, env.between owner repo l head.sha ≠ [] →
      discoverToRun env owner repo (some l) head = env.between owner repo l head.sha) ∧
    (∀ l : PyStr, env.between owner repo l head.sha = [] → l ≠ head.sha →
      discoverToRun env owner repo (some l) head = [head]) := by
  refine ⟨rfl, ?_, ?_, ?_⟩
  · intro hnr
    simp only [branchStep]
    rw [if_pos ⟨by simp, hnr⟩]
  · intro l hne
    simp only [discoverToRun]
    rw [if_neg (fun hc => hne hc.1)]
  · intro l he hlne
    simp only [discoverToRun]
    rw [if_pos ⟨he, hlne⟩]

def env4 : Env :=
  { between := fun _ _ l _ => if l = "A".data then [⟨"bbbbbbbbbb".data, []⟩] else [],
    jobFor := fun _ => Except.ok (0, []), htmlFor := fun _ => [],
    now := [], today := [], archiveCutoff := [] }

def head4 : Commit := ⟨"abc1234def".data, []⟩

theorem commitDiscovery_watermark_policy_witness :
    (("o".data, "r".data, "m".data, head4.sha.take 7)
        ∉ ([] : List (PyStr × PyStr × PyStr × PyStr)) ∧
      env4.between "o".data "r".data "A".data head4.sha ≠ [] ∧
      env4.between "o".data "r".data "C".data head4.sha = [] ∧ "C".data ≠ head4.sha) ∧
    discoverToRun env4 "o".data "r".data none head4 = [head4] ∧
    branchStep env4 false "o".data "r".data "m".data (some head4.sha) [] head4 emptyDb
      = { db := emptyDb, wmWrite := none, retry := [], events := [] } ∧
    discoverToRun env4 "o".data "r".data (some "A".data) head4
      = env4.between "o".data "r".data "A".data head4.sha ∧
    discoverToRun env4 "o".data "r".data (some "C".data) head4 = [head4] :=
  ⟨⟨by decide, by decide, by decide, by decide⟩,
    (commitDiscovery_watermark_policy env4 "o".data "r".data "m".data [] head4 emptyDb).1,
    (commitDiscovery_watermark_policy env4 "o".data "r".data "m".data [] head4 emptyDb).2.1 (by decide),
    (commitDiscovery_watermark_policy env4 "o".data "r".data "m".data [] head4 emptyDb).2.2.1
      "A".data (by decide),
    (commitDiscovery_watermark_policy env4 "o".data "r".data "m".data [] head4 emptyDb).2.2.2
      "C".data (by decide) (by decide)⟩

/-- C5: During backfill the discovered commits run strictly in discovery order,
one full begin/complete run per commit, with the watermark saved to that
commit immediately after its run and before the next run begins: with
watermark A, head D and get_commits_between returning [B, C, D], the branch
step emits the three run traces interleaved with their watermark saves in
order B, C, D, creates exactly the three pending runs B, C, D in that order,
ends with watermark D, and threads the run store through the three runs in
that order. -/
theorem backfill_strict_order (env : Env) (a : PyStr) (b c d : Commit)
    (owner repo branch : PyStr) (db : Db)
    (hne : a ≠ d.sha)
    (hbtw : env.between owner repo a d.sha = [b, c, d]) :
    (branchStep env false owner repo branch (some a) [] d db).events
      = runOneEvents env b ++ [Event.saveWatermark b.sha]
        ++ runOneEvents env c ++ [Event.saveWatermark c.sha]
        ++ runOneEvents env d ++ [Event.saveWatermark d.sha] ∧
    (branchStep env false owner repo branch (some a) [] d db).wmWrite = some d.sha ∧
    ((branchStep env false owner repo branch (some a) [] d db).events.filterMap
        (fun e => match e with | Event.recordPending s => some s | _ => none))
      = [b.sha, c.sha, d.sha] ∧
    (branchStep env false owner repo branch (some a) [] d db).db
      = runOneDb env (runOneDb env (runOneDb env db owner repo branch b) owner repo branch c)
          owner repo branch d := by
  have hstep : branchStep env false owner repo branch (some a) [] d db
      = { db := runOneDb env (runOneDb env (runOneDb env db owner repo branch b)
            owner repo branch c) owner repo branch d,
          wmWrite := some d.sha, retry := [],
          events := (([] ++ runOneEvents env b ++ [Event.saveWatermark b.sha])
            ++ runOneEvents env c ++ [Event.saveWatermark c.sha])
            ++ runOneEvents env d ++ [Event.saveWatermark d.sha] } := by
    simp only [branchStep]
    rw [if_neg (fun h => hne (Option.some_inj.mp h.1))]
    simp only [discoverToRun]
    rw [hbtw]
    rfl
  refine ⟨?_, ?_, ?_, ?_⟩
  · rw [hstep]
    simp [List.append_assoc]
  · rw [hstep]
  · rw [hstep]
    simp only [List.filterMap_append, List.filterMap_nil, runOneEvents, List.filterMap_cons]
    simp
  · rw [hstep]

def cB : Commit := ⟨"bbbbbbb111".data, []⟩

def cC : Commit := ⟨"ccccccc222".data, []⟩

def cD : Commit := ⟨"ddddddd333".data, []⟩

def env5 : Env :=
  { between := fun _ _ _ _ => [cB, cC, cD],
    jobFor := fun _ => Except.ok (0, "out".data), htmlFor := fun _ => "u".data,
    now := "t".data, today := [], archiveCutoff := [] }

theorem backfill_strict_order_witness :
    "A".data ≠ cD.sha ∧
    env5.between "o".data "r".data "A".data cD.sha = [cB, cC, cD] ∧
    ((branchStep env5 false "o".data "r".data "m".data (some "A".data) [] cD emptyDb).events
        = runOneEvents env5 cB ++ [Event.saveWatermark cB.sha]
          ++ runOneEvents env5 cC ++ [Event.saveWatermark cC.sha]
          ++ runOneEvents env5 cD ++ [Event.saveWatermark cD.sha] ∧
      (branchStep env5 false "o".data "r".data "m".data (some "A".data) [] cD emptyDb).wmWrite
        = some cD.sha ∧
      ((branchStep env5 false "o".data "r".data "m".data (some "A".data) [] cD emptyDb).events.filterMap
          (fun e => match e with | Event.recordPending s => some s | _ => none))
        = [cB.sha, cC.sha, cD.sha] ∧
      (branchStep env5 false "o".data "r".data "m".data (some "A".data) [] cD emptyDb).db
        = runOneDb env5 (runOneDb env5 (runOneDb env5 emptyDb "o".data "r".data "m".data cB)
            "o".data "r".data "m".data cC) "o".data "r".data "m".data cD) :=
  ⟨by decide, by decide,
    backfill_strict_order env5 "A".data cB cC cD "o".data "r".data "m".data emptyDb
      (by decide) (by decide)⟩

lemma foldlMax_le (xs : List Nat) : ∀ a bound : Nat, a ≤ bound → (∀ x ∈ xs, x ≤ bound) →
    xs.foldl max a ≤ bound := by
  induction xs with
  | nil => intro a bound ha _; simpa using ha
  | cons y ys ih =>
      intro a bound ha hall
      rw [List.foldl_cons]
      exact ih (max a y) bound (max_le ha (hall y (List.mem_cons_self y ys)))
        (fun x hx => hall x (List.mem_cons.mpr (Or.inr hx)))

lemma maxPendingId_eq_some_foldl (rows : List Row) (o r s7 : PyStr)
    (h : (rows.filter (isPendingFor o r s7)).map Row.id ≠ []) :
    maxPendingId rows o r s7
      = some (((rows.filter (isPendingFor o r s7)).map Row.id).foldl max 0) := by
  rw [maxPendingId]
  cases hc : (rows.filter (isPendingFor o r s7)).map Row.id with
  | nil => exact absurd hc h
  | cons j js => rfl

/-- A freshly inserted pending row with an id above every existing id is the
one record\_run selects. -/
lemma maxPendingId_append_new (rows : List Row) (o r s7 : PyStr) (pnew : Row)
    (hpend : isPendingFor o r s7 pnew = true)
    (hgt : ∀ row ∈ rows, row.id < pnew.id) :
    maxPendingId (rows ++ [pnew]) o r s7 = some pnew.id := by
  have hfilter : (rows ++ [pnew]).filter (isPendingFor o r s7)
      = rows.filter (isPendingFor o r s7) ++ [pnew] := by
    rw [List.filter_append]
    simp [hpend]
  have hne : ((rows ++ [pnew]).filter (isPendingFor o r s7)).map Row.id ≠ [] := by
    rw [hfilter, List.map_append]
    simp
  rw [maxPendingId_eq_some_foldl _ _ _ _ hne, hfilter, List.map_append, List.foldl_append]
  simp only [List.map_cons, List.map_nil, List.foldl_cons, List.foldl_nil]
  congr 1
  refine Nat.max_eq_right (foldlMax_le _ 0 pnew.id (Nat.zero_le _) ?_)
  intro x hx
  rcases List.mem_map.mp hx with ⟨q, hqf, hqid⟩
  rcases List.mem_filter.mp hqf with ⟨hqr, -⟩
  rw [← hqid]
  exact Nat.le_of_lt (hgt q hqr)

/-- Under the serialized discipline, record\_run called right after
record\_pending\_run (with a well-formed table) resolves exactly the freshly
inserted pending row. -/
lemma recordRun_resolves_fresh (db : Db) (owner repo sha url at0 branch msg : PyStr)
    (success : Bool) (at1 out branch2 msg2 : PyStr) (hwf : WFdb db) :
    recordRun (recordPendingRun db owner repo sha url at0 branch msg) owner repo sha success
        url at1 out branch2 msg2
      = { rows := (recordPendingRun db owner repo sha url at0 branch msg).rows.map
            (fun row => if row.id = db.nextId then
              resolveRow success url at1 (out.take MAX_OUTPUT_LEN) branch2 (msg2.take 2048) row
            else row),
          nextId := db.nextId + 1 } := by
  have hmax : maxPendingId (recordPendingRun db owner repo sha url at0 branch msg).rows
      owner repo (sha.take 7) = some db.nextId := by
    have h := maxPendingId_append_new db.rows owner repo (sha.take 7)
      (freshPendingRow db owner repo sha url at0 branch msg)
      (by simp [isPendingFor, freshPendingRow]) (fun row hr => hwf row hr)
    exact h
  simp only [recordRun, hmax]
  rfl

/-- C7: If executing the job raises an unexpected exception e, run_one treats
it as exit code 1 with the fault text as output: the external check run is
completed with conclusion "failure", the matching pending row is resolved to
Failure (success 0) with the fault description stored as its output, and the
step function is total, so the per-commit loop goes on to the next commit
with the usual trace. -/
theorem job_fault_recorded_as_failure (env : Env) (db : Db) (owner repo branch : PyStr)
    (c : Commit) (e : PyStr)
    (herr : env.jobFor c.sha = Except.error e)
    (hene : e ≠ [])
    (hlen : e.length ≤ MAX_OUTPUT_LEN)
    (hwf : WFdb db) :
    runOneEvents env c = [Event.recordPending c.sha, Event.jobRun c.sha,
      Event.completeCheck c.sha strFailure, Event.recordRunEv c.sha false] ∧
    (∃ row ∈ (runOneDb env db owner repo branch c).rows,
      row.owner = owner ∧ row.repo = repo ∧ row.sha = c.sha.take 7 ∧
      row.success = 0 ∧ row.output = e) ∧
    (∀ c2 : Commit, ∀ wm : Option PyStr,
      (processCommits env db owner repo branch [c, c2] wm).2.2
        = runOneEvents env c ++ [Event.saveWatermark c.sha]
          ++ runOneEvents env c2 ++ [Event.saveWatermark c2.sha]) := by
  refine ⟨?_, ?_, ?_⟩
  · simp [runOneEvents, jobOutcome, herr]
  · have h1 : jobOutcome env c = (1, e) := by rw [jobOutcome, herr]
    have hout : orDefault e noOutputStr = e := by rw [orDefault, if_neg hene]
    have hdbeq : runOneDb env db owner repo branch c
        = { rows := (recordPendingRun db owner repo c.sha (env.htmlFor c.sha) env.now branch
              c.message).rows.map (fun row => if row.id = db.nextId then
                resolveRow false (env.htmlFor c.sha) env.now (e.take MAX_OUTPUT_LEN) branch
                  (c.message.take 2048) row
              else row),
            nextId := db.nextId + 1 } := by
      simp only [runOneDb, h1, hout]
      have hdec : decide ((1 : Int) = 0) = false := by decide
      rw [hdec]
      exact recordRun_resolves_fresh db owner repo c.sha (env.htmlFor c.sha) env.now branch
        c.message false env.now e branch c.message hwf
    rw [hdbeq]
    refine ⟨resolveRow false (env.htmlFor c.sha) env.now (e.take MAX_OUTPUT_LEN) branch
      (c.message.take 2048)
      (freshPendingRow db owner repo c.sha (env.htmlFor c.sha) env.now branch c.message),
      ?_, ?_, ?_, ?_, ?_, ?_⟩
    · have hmem : freshPendingRow db owner repo c.sha (env.htmlFor c.sha) env.now branch
          c.message
          ∈ (recordPendingRun db owner repo c.sha (env.htmlFor c.sha) env.now branch
              c.message).rows :=
        List.mem_append_right _ (List.mem_singleton.mpr rfl)
      have happ := List.mem_map_of_mem (fun row => if row.id = db.nextId then
        resolveRow false (env.htmlFor c.sha) env.now (e.take MAX_OUTPUT_LEN) branch
          (c.message.take 2048) row
        else row) hmem
      simpa [freshPendingRow] using happ
    · rfl
    · rfl
    · rfl
    · rfl
    · show e.take MAX_OUTPUT_LEN = e
      exact List.take_of_length_le hlen
  · simp only [processCommits, List.foldl_cons, List.foldl_nil]
    intro c2 wm
    simp [List.append_assoc]

def env7 : Env :=
  { between := fun _ _ _ _ => [], jobFor := fun _ => Except.error "boom".data,
    htmlFor := fun _ => "u".data, now := "t".data, today := [], archiveCutoff := [] }

def c7 : Commit := ⟨"abc1234def".data, "msg".data⟩

theorem job_fault_recorded_as_failure_witness :
    env7.jobFor c7.sha = Except.error "boom".data ∧
    "boom".data ≠ ([] : PyStr) ∧
    "boom".data.length ≤ MAX_OUTPUT_LEN ∧
    WFdb emptyDb ∧
    (runOneEvents env7 c7 = [Event.recordPending c7.sha, Event.jobRun c7.sha,
        Event.completeCheck c7.sha strFailure, Event.recordRunEv c7.sha false] ∧
      (∃ row ∈ (runOneDb env7 emptyDb "o".data "r".data "m".data c7).rows,
        row.owner = "o".data ∧ row.repo = "r".data ∧ row.sha = c7.sha.take 7 ∧
        row.success = 0 ∧ row.output = "boom".data) ∧
      (∀ c2 : Commit, ∀ wm : Option PyStr,
        (processCommits env7 emptyDb "o".data "r".data "m".data [c7, c2] wm).2.2
          = runOneEvents env7 c7 ++ [Event.saveWatermark c7.sha]
            ++ runOneEvents env7 c2 ++ [Event.saveWatermark c2.sha])) :=
  ⟨rfl, by decide, by decide, fun row hr => absurd hr (List.not_mem_nil row),
    job_fault_recorded_as_failure env7 emptyDb "o".data "r".data "m".data c7 "boom".data
      rfl (by decide) (by decide) (fun row hr => absurd hr (List.not_mem_nil row))⟩

def env1 : Env :=
  { between := fun _ _ _ _ => [], jobFor := fun _ => Except.ok (0, []),
    htmlFor := fun _ => [], now := [], today := [], archiveCutoff := [] }

def retry1 : List (PyStr × PyStr × PyStr × PyStr) :=
  [("o".data, "r".data, "main".data, "abc1234".data)]

/-- C1: evaluation of the poll loop at the state the claim describes: the
branch head equals the retry-set commit and the watermark already equals that
head, with get_commits_between returning the empty list for identical
endpoints (the specification allows an empty result).  The short circuit is
overridden, but discovery yields an empty to_run, so the loop takes the
empty-to_run continue path: no run of any kind is created (no events besides
re-saving the state file, run store unchanged) and the retry entry is NOT
removed from the set, contradicting the claimed re-evaluation and removal. -/
theorem crash_retry_override_creates_no_run :
    branchStep env1 false "o".data "r".data "main".data (some "abc1234def".data)
        retry1 ⟨"abc1234def".data, []⟩ emptyDb
      = { db := emptyDb, wmWrite := some "abc1234def".data, retry := retry1,
          events := [Event.saveState] } ∧
    ("o".data, "r".data, "main".data, "abc1234".data) ∈
      (branchStep env1 false "o".data "r".data "main".data (some "abc1234def".data)
        retry1 ⟨"abc1234def".data, []⟩ emptyDb).retry ∧
    ((branchStep env1 false "o".data "r".data "main".data (some "abc1234def".data)
        retry1 ⟨"abc1234def".data, []⟩ emptyDb).events.filterMap
      (fun e => match e with | Event.recordPending s => some s | _ => none)) = [] := by
  decide

def pendingRow9 : Row :=
  { id := 0, owner := "o".data, repo := "r".data, sha := "abc1234".data, success := -1,
    html_url := "u".data, at_ := "t0".data, output := [], branch := "main".data,
    commit_message := [], started_at := "t0".data }

def dbP9 : Db := { rows := [pendingRow9], nextId := 1 }

def env9 : Env :=
  { between := fun _ _ _ _ => [], jobFor := fun _ => Except.ok (0, []),
    htmlFor := fun _ => [], now := [], today := "2026-10-12".data,
    archiveCutoff := "2026-10-05".data }

/-- C9 counterexample: a dry-run process started over a run store holding one
leftover Pending row still mutates persistent state: the startup recovery pass
(which main runs before the poll loop without any dry-run guard) rewrites that
Run row to Cancelled, so the claim that no Run rows are created or modified in
dry-run mode fails at this input, even though the process still performs one
cycle and exits zero. -/
theorem dryRun_modifies_pending_rows_counterexample :
    (runMainModel env9 true [] dbP9 [] none 1).1.db ≠ dbP9 ∧
    (runMainModel env9 true [] dbP9 [] none 1).1.db.rows
      = [{ pendingRow9 with success := CANCELLED }] ∧
    (runMainModel env9 true [] dbP9 [] none 1).2.2.1 = 1 ∧
    (runMainModel env9 true [] dbP9 [] none 1).2.2.2 = some 0 := by
  decide

lemma branchStep_dry (env : Env) (owner repo branch : PyStr) (last : Option PyStr)
    (retry : List (PyStr × PyStr × PyStr × PyStr)) (head : Commit) (db : Db) :
    (branchStep env true owner repo branch last retry head db).db = db ∧
    (branchStep env true owner repo branch last retry head db).wmWrite = none ∧
    ∀ e ∈ (branchStep env true owner repo branch last retry head db).events,
      ∃ s, e = Event.wouldRun s := by
  simp only [branchStep]
  by_cases h1 : last = some head.sha ∧ ¬ ((owner, repo, branch, head.sha.take 7) ∈ retry)
  · rw [if_pos h1]
    exact ⟨rfl, rfl, by simp⟩
  · rw [if_neg h1]
    by_cases h2 : discoverToRun env owner repo last head = []
    · rw [if_pos h2]
      exact ⟨rfl, rfl, by simp⟩
    · rw [if_neg h2]
      refine ⟨rfl, rfl, ?_⟩
      intro e he
      rcases List.mem_map.mp he with ⟨c, -, rfl⟩
      exact ⟨c.sha, rfl⟩

lemma applyBranch_dry (env : Env) (ps : PState) (owner repo branch : PyStr) (head : Commit) :
    (applyBranch env true ps owner repo branch head).1.watermarks = ps.watermarks ∧
    (applyBranch env true ps owner repo branch head).1.lastArchiveDate = ps.lastArchiveDate ∧
    (applyBranch env true ps owner repo branch head).1.db = ps.db ∧
    ∀ e ∈ (applyBranch env true ps owner repo branch head).2, ∃ s, e = Event.wouldRun s := by
  obtain ⟨h1, h2, h3⟩ := branchStep_dry env owner repo branch
    (wmGet ps.watermarks (owner, repo, branch)) ps.retry head ps.db
  refine ⟨?_, rfl, h1, h3⟩
  show (match (branchStep env true owner repo branch
      (wmGet ps.watermarks (owner, repo, branch)) ps.retry head ps.db).wmWrite with
    | none => ps.watermarks
    | some v => wmSet ps.watermarks (owner, repo, branch) v) = ps.watermarks
  rw [h2]

lemma foldBranches_dry (env : Env) (o r : PyStr) :
    ∀ (branches : List (PyStr × Commit)) (acc : PState × List Event),
    ((branches.foldl
        (fun acc2 bh =>
          let res := applyBranch env true acc2.1 o r bh.1 bh.2
          (res.1, acc2.2 ++ res.2))
        acc).1.watermarks = acc.1.watermarks ∧
      (branches.foldl
        (fun acc2 bh =>
          let res := applyBranch env true acc2.1 o r bh.1 bh.2
          (res.1, acc2.2 ++ res.2))
        acc).1.lastArchiveDate = acc.1.lastArchiveDate ∧
      (branches.foldl
        (fun acc2 bh =>
          let res := applyBranch env true acc2.1 o r bh.1 bh.2
          (res.1, acc2.2 ++ res.2))
        acc).1.db = acc.1.db ∧
      ∀ e ∈ (branches.foldl
        (fun acc2 bh =>
          let res := applyBranch env true acc2.1 o r bh.1 bh.2
          (res.1, acc2.2 ++ res.2))
        acc).2, e ∈ acc.2 ∨ ∃ s, e = Event.wouldRun s) := by
  intro branches
  induction branches with
  | nil => intro acc; exact ⟨rfl, rfl, rfl, fun e he => Or.inl he⟩
  | cons bh rest ih =>
      intro acc
      rw [List.foldl_cons]
      obtain ⟨ha1, ha2, ha3, ha4⟩ := applyBranch_dry env acc.1 o r bh.1 bh.2
      obtain ⟨h1, h2, h3, h4⟩ := ih
        ((applyBranch env true acc.1 o r bh.1 bh.2).1,
         acc.2 ++ (applyBranch env true acc.1 o r bh.1 bh.2).2)
      refine ⟨h1.trans ha1, h2.trans ha2, h3.trans ha3, ?_⟩
      intro e he
      rcases h4 e he with hin | hw
      · rcases List.mem_append.mp hin with hin2 | hin2
        · exact Or.inl hin2
        · exact Or.inr (ha4 e hin2)
      · exact Or.inr hw

lemma foldTargets_dry (env : Env) :
    ∀ (targets : List TargetObs) (acc : PState × List Event),
    ((targets.foldl
        (fun acc t =>
          t.branches.foldl
            (fun acc2 bh =>
              let res := applyBranch env true acc2.1 t.owner t.repo bh.1 bh.2
              (res.1, acc2.2 ++ res.2))
            acc)
        acc).1.watermarks = acc.1.watermarks ∧
      (targets.foldl
        (fun acc t =>
          t.branches.foldl
            (fun acc2 bh =>
              let res := applyBranch env true acc2.1 t.owner t.repo bh.1 bh.2
              (res.1, acc2.2 ++ res.2))
            acc)
        acc).1.lastArchiveDate = acc.1.lastArchiveDate ∧
      (targets.foldl
        (fun acc t =>
          t.branches.foldl
            (fun acc2 bh =>
              let res := applyBranch env true acc2.1 t.owner t.repo bh.1 bh.2
              (res.1, acc2.2 ++ res.2))
            acc)
        acc).1.db = acc.1.db ∧
      ∀ e ∈ (targets.foldl
        (fun acc t =>
          t.branches.foldl
            (fun acc2 bh =>
              let res := applyBranch env true acc2.1 t.owner t.repo bh.1 bh.2
              (res.1, acc2.2 ++ res.2))
            acc)
        acc).2, e ∈ acc.2 ∨ ∃ s, e = Event.wouldRun s) := by
  intro targets
  induction targets with
  | nil => intro acc; exact ⟨rfl, rfl, rfl, fun e he => Or.inl he⟩
  | cons t rest ih =>
      intro acc
      rw [List.foldl_cons]
      obtain ⟨hb1, hb2, hb3, hb4⟩ := foldBranches_dry env t.owner t.repo t.branches acc
      obtain ⟨h1, h2, h3, h4⟩ := ih
        (t.branches.foldl
          (fun acc2 bh =>
            let res := applyBranch env true acc2.1 t.owner t.repo bh.1 bh.2
            (res.1, acc2.2 ++ res.2))
          acc)
      refine ⟨h1.trans hb1, h2.trans hb2, h3.trans hb3, ?_⟩
      intro e he
      rcases h4 e he with hin | hw
      · exact hb4 e hin
      · exact Or.inr hw

lemma pollCycle_dry (env : Env) (targets : List TargetObs) (ps : PState) :
    (pollCycle env true targets ps).1.watermarks = ps.watermarks ∧
    (pollCycle env true targets ps).1.lastArchiveDate = ps.lastArchiveDate ∧
    (pollCycle env true targets ps).1.db = ps.db ∧
    ∀ e ∈ (pollCycle env true targets ps).2, ∃ s, e = Event.wouldRun s := by
  have hstart : (if ps.lastArchiveDate ≠ some env.today ∧ ¬ (true : Bool) then
      ({ ps with
         db := archiveOlder ps.db env.archiveCutoff,
         lastArchiveDate := some env.today },
       [Event.archive, Event.saveState])
    else (ps, ([] : List Event))) = (ps, ([] : List Event)) := by
    rw [if_neg]
    rintro ⟨-, habs⟩
    simp at habs
  rw [pollCycle, hstart]
  obtain ⟨h1, h2, h3, h4⟩ := foldTargets_dry env targets (ps, ([] : List Event))
  refine ⟨h1, h2, h3, ?_⟩
  intro e he
  rcases h4 e he with hin | hw
  · cases hin
  · exact hw

/-- C9 amended: within the poll loop itself dry-run mode is read-only and
bounded: the single cycle leaves the watermark map, the archive cursor and the
run store exactly as they were, emits only would-run log events (no pending
runs, no jobs, no state-file or archive writes), and the loop performs exactly
one cycle and exits with status zero.  (The startup recovery pass that
precedes the loop still cancels leftover Pending rows, see the
counterexample.) -/
theorem dryRun_cycle_readonly_and_exits_zero (env : Env) (targets : List TargetObs)
    (ps : PState) (fuel : Nat) (hfuel : 1 ≤ fuel) :
    (mainLoop env true targets fuel ps).2.2.1 = 1 ∧
    (mainLoop env true targets fuel ps).2.2.2 = some 0 ∧
    (mainLoop env true targets fuel ps).1.watermarks = ps.watermarks ∧
    (mainLoop env true targets fuel ps).1.lastArchiveDate = ps.lastArchiveDate ∧
    (mainLoop env true targets fuel ps).1.db = ps.db ∧
    ∀ e ∈ (mainLoop env true targets fuel ps).2.1, ∃ s, e = Event.wouldRun s := by
  obtain ⟨f, rfl⟩ : ∃ f, fuel = f + 1 := ⟨fuel - 1, by omega⟩
  obtain ⟨h1, h2, h3, h4⟩ := pollCycle_dry env targets ps
  exact ⟨rfl, rfl, h1, h2, h3, h4⟩

def ps9 : PState :=
  { watermarks := [(("o".data, "r".data, "main".data), "abc1234def".data)],
    lastArchiveDate := none, db := dbP9, retry := [] }

theorem dryRun_cycle_readonly_witness :
    1 ≤ 1 ∧
    ((mainLoop env9 true [] 1 ps9).2.2.1 = 1 ∧
      (mainLoop env9 true [] 1 ps9).2.2.2 = some 0 ∧
      (mainLoop env9 true [] 1 ps9).1.watermarks = ps9.watermarks ∧
      (mainLoop env9 true [] 1 ps9).1.lastArchiveDate = ps9.lastArchiveDate ∧
      (mainLoop env9 true [] 1 ps9).1.db = ps9.db ∧
      ∀ e ∈ (mainLoop env9 true [] 1 ps9).2.1, ∃ s, e = Event.wouldRun s) :=
  ⟨by decide, dryRun_cycle_readonly_and_exits_zero env9 [] ps9 1 (by decide)⟩

/-- Strengthening a singleton filter: if filtering by P leaves exactly row p,
Q implies P pointwise, and p satisfies Q, then filtering by Q also leaves
exactly p. -/
lemma filter_strengthen_singleton {α : Type} (P Q : α → Bool)
    (himp : ∀ a, Q a = true → P a = true) :
    ∀ (l : List α) (p : α), l.filter P = [p] → Q p = true → l.filter Q = [p] := by
  intro l
  induction l with
  | nil => intro p hp _; cases hp
  | cons a as ih =>
      intro p hp hq
      cases hP : P a with
      | false =>
          have hQa : Q a = false := by
            cases hQ : Q a with
            | false => rfl
            | true => rw [himp a hQ] at hP; cases hP
          rw [List.filter_cons_of_neg (by rw [hP]; exact Bool.false_ne_true)] at hp
          rw [List.filter_cons_of_neg (by rw [hQa]; exact Bool.false_ne_true)]
          exact ih p hp hq
      | true =>
          rw [List.filter_cons_of_pos hP] at hp
          have hap : a = p := (List.cons_eq_cons.mp hp).1
          have has : as.filter P = [] := (List.cons_eq_cons.mp hp).2
          rw [List.filter_cons_of_pos (hap ▸ hq), hap]
          have : as.filter Q = [] := by
            rw [List.filter_eq_nil_iff]
            intro x hx hQx
            have := List.filter_eq_nil_iff.mp has x hx
            exact this (himp x hQx)
          rw [this]

lemma pendings_recordPendingRun (db : Db) (o r sha url at_ br msg : PyStr) :
    pendings (recordPendingRun db o r sha url at_ br msg)
      = pendings db ++ [freshPendingRow db o r sha url at_ br msg] := by
  simp only [pendings, recordPendingRun]
  rw [List.filter_append]
  simp [freshPendingRow, PENDING]

lemma mem_pendings {db : Db} {row : Row} :
    row ∈ pendings db ↔ row ∈ db.rows ∧ row.success = PENDING := by
  simp [pendings]

lemma LInv_beginRun (db : Db) (o r sha url at_ br msg : PyStr)
    (hsha : ∀ row ∈ db.rows, row.sha.take 7 = row.sha)
    (hpend : pendings db = []) :
    LInv ⟨recordPendingRun db o r sha url at_ br msg, Mode.inflight o r sha⟩ := by
  constructor
  · intro row hr
    rcases List.mem_append.mp hr with h | h
    · exact hsha row h
    · rw [List.mem_singleton.mp h]
      show ((sha.take 7).take 7) = sha.take 7
      rw [List.take_take]
      norm_num
  · refine ⟨freshPendingRow db o r sha url at_ br msg, ?_, rfl, rfl, rfl⟩
    rw [pendings_recordPendingRun, hpend, List.nil_append]

lemma LInv_completeRun (db : Db) (o r sha : PyStr) (success : Bool) (url at_ out br msg : PyStr)
    (hsha : ∀ row ∈ db.rows, row.sha.take 7 = row.sha)
    (p : Row) (hp : pendings db = [p]) (hpo : p.owner = o) (hpr : p.repo = r)
    (hps : p.sha = sha.take 7) :
    LInv ⟨recordRun db o r sha success url at_ out br msg, Mode.idle⟩ := by
  have hpmem : p ∈ pendings db := by rw [hp]; exact List.mem_cons_self p []
  have hpin : p ∈ db.rows := (mem_pendings.mp hpmem).1
  have hpsucc : p.success = PENDING := (mem_pendings.mp hpmem).2
  have hpfor : isPendingFor o r (sha.take 7) p = true := by
    simp [isPendingFor, hpo, hpr, hps, hpsucc]
  have hfilter : db.rows.filter (isPendingFor o r (sha.take 7)) = [p] := by
    refine filter_strengthen_singleton (fun (row : Row) => decide (row.success = PENDING))
      (isPendingFor o r (sha.take 7)) ?_ db.rows p hp hpfor
    intro a ha
    simp only [isPendingFor, decide_eq_true_eq] at ha
    simp [ha.2.2.2]
  have hmax : maxPendingId db.rows o r (sha.take 7) = some p.id := by
    rw [maxPendingId_eq_some_foldl db.rows o r (sha.take 7) (by rw [hfilter]; simp)]
    rw [hfilter]
    simp
  have hrows : (recordRun db o r sha success url at_ out br msg).rows
      = db.rows.map (fun row => if row.id = p.id then
          resolveRow success url at_ (out.take MAX_OUTPUT_LEN) br (msg.take 2048) row
        else row) := by
    simp only [recordRun, hmax]
  constructor
  · intro row hr
    rw [hrows] at hr
    rcases List.mem_map.mp hr with ⟨q, hq, rfl⟩
    by_cases hid : q.id = p.id
    · rw [if_pos hid]
      exact hsha q hq
    · rw [if_neg hid]
      exact hsha q hq
  · show pendings _ = []
    have hpend : pendings (recordRun db o r sha success url at_ out br msg)
        = ((db.rows.map (fun row => if row.id = p.id then
            resolveRow success url at_ (out.take MAX_OUTPUT_LEN) br (msg.take 2048) row
          else row)).filter (fun row => decide (row.success = PENDING))) := by
      rw [pendings, hrows]
    rw [hpend, List.filter_eq_nil_iff]
    intro a ha
    rcases List.mem_map.mp ha with ⟨q, hq, rfl⟩
    by_cases hid : q.id = p.id
    · rw [if_pos hid]
      cases success <;> simp [resolveRow, PENDING]
    · rw [if_neg hid]
      simp only [decide_eq_true_eq]
      intro hqp
      have hqmem : q ∈ pendings db := mem_pendings.mpr ⟨hq, hqp⟩
      rw [hp] at hqmem
      exact hid (by rw [List.mem_singleton.mp hqmem])

lemma LInv_crash (db : Db) (m : Mode) (hinv : LInv ⟨db, m⟩) : LInv ⟨db, Mode.crashed⟩ := by
  obtain ⟨hsha, hrest⟩ := hinv
  refine ⟨hsha, ?_⟩
  cases m with
  | idle =>
      show (pendings db).length ≤ 1
      rw [show pendings db = [] from hrest]
      simp
  | inflight o r sha =>
      show (pendings db).length ≤ 1
      obtain ⟨p, hp, -⟩ := hrest
      rw [hp]
      simp
  | crashed => exact hrest

lemma LInv_recover (db : Db)
    (hsha : ∀ row ∈ db.rows, row.sha.take 7 = row.sha)
    (hlen : (pendings db).length ≤ 1) :
    LInv ⟨(startupRecovery db).1, Mode.idle⟩ := by
  cases hp : pendings db with
  | nil =>
      have hg : getPendingRuns db = [] := by rw [getPendingRuns, hp]; rfl
      have hdb : (startupRecovery db).1 = db := by simp [startupRecovery, hg]
      rw [hdb]
      exact ⟨hsha, hp⟩
  | cons p rest =>
      have hrest : rest = [] := by
        rw [hp] at hlen
        simp at hlen
        exact hlen
      subst hrest
      have hpmem : p ∈ pendings db := by rw [hp]; exact List.mem_cons_self p []
      have hpin := (mem_pendings.mp hpmem).1
      have hpsucc := (mem_pendings.mp hpmem).2
      have hg : getPendingRuns db
          = [{ owner := p.owner, repo := p.repo, sha := p.sha, branch := p.branch }] := by
        rw [getPendingRuns, hp]
        simp
      have hdb : (startupRecovery db).1 = markPendingRunCancelled db p.owner p.repo p.sha := by
        simp [startupRecovery, hg]
      rw [hdb]
      refine ⟨?_, ?_⟩
      · intro row hr
        rcases List.mem_map.mp hr with ⟨q, hq, rfl⟩
        by_cases hc : isPendingFor p.owner p.repo (p.sha.take 7) q = true
        · rw [if_pos hc]
          exact hsha q hq
        · rw [if_neg hc]
          exact hsha q hq
      · show pendings _ = []
        have hrows : (markPendingRunCancelled db p.owner p.repo p.sha).rows
            = db.rows.map (fun row =>
                if isPendingFor p.owner p.repo (p.sha.take 7) row then
                  { row with success := CANCELLED }
                else row) := rfl
        have hpend : pendings (markPendingRunCancelled db p.owner p.repo p.sha)
            = (db.rows.map (fun row =>
                if isPendingFor p.owner p.repo (p.sha.take 7) row then
                  { row with success := CANCELLED }
                else row)).filter (fun row => decide (row.success = PENDING)) := by
          rw [pendings, hrows]
        rw [hpend, List.filter_eq_nil_iff]
        intro a ha
        rcases List.mem_map.mp ha with ⟨q, hq, rfl⟩
        by_cases hc : isPendingFor p.owner p.repo (p.sha.take 7) q = true
        · rw [if_pos hc]
          simp [CANCELLED, PENDING]
        · rw [if_neg hc]
          simp only [decide_eq_true_eq]
          intro hqp
          have hqmem : q ∈ pendings db := mem_pendings.mpr ⟨hq, hqp⟩
          rw [hp] at hqmem
          apply hc
          rw [List.mem_singleton.mp hqmem]
          simp [isPendingFor, hpsucc, hsha p hpin]

/-- Every state reachable under the serialized begin/complete discipline
satisfies the inductive invariant. -/
lemma linv_of_reach (s : LState) (h : LReach s) : LInv s := by
  induction h with
  | init => exact ⟨fun row hr => absurd hr (List.not_mem_nil row), rfl⟩
  | step hr hstep ih =>
      cases hstep with
      | beginRun db o r sha url at_ br msg =>
          exact LInv_beginRun db o r sha url at_ br msg ih.1 ih.2
      | completeRun db o r sha success url at_ out br msg =>
          obtain ⟨hsha, p, hp, hpo, hpr, hps⟩ := ih
          exact LInv_completeRun db o r sha success url at_ out br msg hsha p hp hpo hpr hps
      | crash db m => exact LInv_crash db m ih
      | recover db => exact LInv_recover db ih.1 ih.2

/-- C3: In every run-store state reachable through record\_pending\_run,
record\_run, mark\_pending\_run\_cancelled and the startup recovery pass under
the process-wide serial begin/complete discipline (starting from an empty
store), the number of rows in Pending state for any (owner, repo, commit)
key is at most one. -/
theorem at_most_one_pending_per_key (s : LState) (h : LReach s) (o r s7 : PyStr) :
    pendingCountForKey s.db o r s7 ≤ 1 := by
  have hinv := linv_of_reach s h
  have hlen : (pendings s.db).length ≤ 1 := by
    obtain ⟨db, m⟩ := s
    obtain ⟨-, hrest⟩ := hinv
    cases m with
    | idle =>
        show (pendings db).length ≤ 1
        rw [show pendings db = [] from hrest]
        simp
    | inflight o0 r0 sha0 =>
        obtain ⟨p, hp, -⟩ := hrest
        show (pendings db).length ≤ 1
        rw [hp]
        simp
    | crashed => exact hrest
  calc pendingCountForKey s.db o r s7
      ≤ (pendings s.db).length := List.length_filter_le _ _
    _ ≤ 1 := hlen

theorem at_most_one_pending_per_key_witness :
    pendingCountForKey
      (recordPendingRun emptyDb "o".data "r".data "abc1234def".data "u".data "t".data
        "main".data "m".data)
      "o".data "r".data "abc1234".data ≤ 1 :=
  at_most_one_pending_per_key
    ⟨recordPendingRun emptyDb "o".data "r".data "abc1234def".data "u".data "t".data
      "main".data "m".data,
     Mode.inflight "o".data "r".data "abc1234def".data⟩
    (LReach.step LReach.init
      (LStep.beginRun emptyDb "o".data "r".data "abc1234def".data "u".data "t".data
        "main".data "m".data))
    "o".data "r".data "abc1234".data
